import Mathlib

/-!
Shallow embedding of the VAE + clustering pipeline in
`pipeline/scripts/vae_cluster.py` (DeepSea-AI), together with theorems
settling the specification claims about it.

Modelling conventions:
* Python floats are embedded as rationals (`ℚ`); where the code relies on
  IEEE `inf` (the `np.inf` sentinel) we use `WithTop ℚ`, and where the code
  inspects `NaN` (the PCA explained-variance check) we use an explicit
  float-with-NaN type `Flt`.
* `torch.exp` is embedded as an abstract function `rexp : ℚ → ℚ` passed as a
  parameter (the exponential is transcendental; every theorem below holds
  for an arbitrary interpretation of it).
* Randomness (weight init, `torch.randn_like` draws) is embedded by passing
  the drawn noise vectors as explicit arguments, the standard shallow
  embedding of seeded sampling.
* Vectors are `List ℚ` rows; matrices are lists of rows.
* Euclidean distances are represented by their squares (`sqDist`): the
  square root is strictly monotone on nonnegative reals, so minima,
  comparisons and the choice of nearest centroid are preserved, and the
  embedding stays executable over `ℚ`.
-/

namespace VaeCluster

/-- A vector of rationals: one embedding / latent / reconstruction row. -/
abbrev Vec := List ℚ

/- ------------------------------------------------------------------
Configuration constants, from the `Config / Params` block of
`vae_cluster.py` (lines 109-120).
------------------------------------------------------------------ -/

def latent_dim : ℕ := 16
def hidden_dim : ℕ := 256
def beta_final : ℚ := 10
def beta_warmup_epochs : ℕ := 10
def pca_components : ℕ := 5
def umap_components : ℕ := 10
def input_noise_std : ℚ := 1 / 100
def hdbscan_min_cluster_size : ℕ := 30
def hdbscan_min_samples : ℕ := 10

/- ------------------------------------------------------------------
Beta warm-up schedule (vae_cluster.py lines 267-271):

    if epoch <= beta_warmup_epochs and beta_warmup_epochs > 0:
        beta = float(epoch) / float(beta_warmup_epochs) * beta_final
    else:
        beta = beta_final

Parametric in the warm-up length `W` and final weight `bf`; the run uses
`W = beta_warmup_epochs` and `bf = beta_final`.
------------------------------------------------------------------ -/

def betaSchedule (W : ℕ) (bf : ℚ) (epoch : ℕ) : ℚ :=
  if epoch ≤ W ∧ 0 < W then (epoch : ℚ) / (W : ℚ) * bf else bf

/- ------------------------------------------------------------------
Per-epoch loss averages (vae_cluster.py lines 297-299):

    avg_recon = total_recon / max(1, n_batches)
    avg_kld = total_kld / max(1, n_batches)
    avg_loss = total_loss / max(1, n_batches)

An epoch is summarised from the list of per-batch (recon, kld, loss)
triples accumulated by the loop at lines 292-295.
------------------------------------------------------------------ -/

def epochTotals (batches : List (ℚ × ℚ × ℚ)) : ℚ × ℚ × ℚ :=
  ((batches.map (·.1)).sum, (batches.map (·.2.1)).sum, (batches.map (·.2.2)).sum)

def epochDenominator (nBatches : ℕ) : ℕ :=
  max 1 nBatches

def epochAverages (batches : List (ℚ × ℚ × ℚ)) : ℚ × ℚ × ℚ :=
  let t := epochTotals batches
  let d : ℚ := (epochDenominator batches.length : ℚ)
  (t.1 / d, t.2.1 / d, t.2.2 / d)

/- ------------------------------------------------------------------
Theorems for claims C1 and C10.
------------------------------------------------------------------ -/

/-- C1: for every warm-up length W > 0 the KL weight of epoch e is
(e/W)·beta_final while e ≤ W and beta_final afterwards; the schedule is
non-decreasing over epochs, beta(1) = beta_final/W, and beta(e) = beta_final
for every epoch beyond the warm-up length. -/
theorem beta_schedule_correct (W : ℕ) (hW : 0 < W) :
    (∀ e, e ≤ W → betaSchedule W beta_final e = (e : ℚ) / (W : ℚ) * beta_final) ∧
    (∀ e, W < e → betaSchedule W beta_final e = beta_final) ∧
    (∀ e e', e ≤ e' → betaSchedule W beta_final e ≤ betaSchedule W beta_final e') ∧
    betaSchedule W beta_final 1 = beta_final / (W : ℚ) := by
  have hWq : (0 : ℚ) < (W : ℚ) := by exact_mod_cast hW
  have hbf : (0 : ℚ) ≤ beta_final := by norm_num [beta_final]
  have hval : ∀ e, e ≤ W → betaSchedule W beta_final e = (e : ℚ) / (W : ℚ) * beta_final := by
    intro e he
    simp [betaSchedule, he, hW]
  have hpost : ∀ e, W < e → betaSchedule W beta_final e = beta_final := by
    intro e he
    simp [betaSchedule, Nat.not_le.mpr he]
  have hbound : ∀ e, e ≤ W → betaSchedule W beta_final e ≤ beta_final := by
    intro e he
    rw [hval e he]
    have h1 : (e : ℚ) / (W : ℚ) ≤ 1 := by
      rw [div_le_one hWq]
      exact_mod_cast he
    calc (e : ℚ) / (W : ℚ) * beta_final ≤ 1 * beta_final := by
          exact mul_le_mul_of_nonneg_right h1 hbf
      _ = beta_final := one_mul _
  refine ⟨hval, hpost, ?_, ?_⟩
  · intro e e' hee
    by_cases he : e ≤ W
    · by_cases he' : e' ≤ W
      · rw [hval e he, hval e' he']
        have hnum : (e : ℚ) ≤ (e' : ℚ) := by exact_mod_cast hee
        have hdiv : (e : ℚ) / (W : ℚ) ≤ (e' : ℚ) / (W : ℚ) :=
          (div_le_div_iff_of_pos_right hWq).mpr hnum
        exact mul_le_mul_of_nonneg_right hdiv hbf
      · rw [hpost e' (Nat.not_le.mp he')]
        exact hbound e he
    · have hWe : W < e := Nat.not_le.mp he
      have hWe' : W < e' := lt_of_lt_of_le hWe hee
      rw [hpost e hWe, hpost e' hWe']
  · rw [hval 1 hW]
    rw [div_eq_mul_inv, div_eq_mul_inv]
    push_cast
    ring

/-- C10: per-epoch average reconstruction, KL and total losses divide by
max(1, n_batches); the denominator is always positive, and an epoch with
zero minibatches (empty dataset) yields well-defined averages (0,0,0)
rather than a division by zero. -/
theorem epoch_average_denominator (batches : List (ℚ × ℚ × ℚ)) :
    0 < epochDenominator batches.length ∧
    epochAverages batches =
      ((epochTotals batches).1 / (epochDenominator batches.length : ℚ),
       (epochTotals batches).2.1 / (epochDenominator batches.length : ℚ),
       (epochTotals batches).2.2 / (epochDenominator batches.length : ℚ)) ∧
    epochDenominator 0 = 1 ∧
    epochAverages [] = (0, 0, 0) := by
  refine ⟨?_, rfl, rfl, ?_⟩
  · exact lt_of_lt_of_le Nat.one_pos (le_max_left 1 _)
  · simp [epochAverages, epochTotals, epochDenominator]

/-- Witness for C1: the theorem instantiated at the warm-up length of the run
W = beta_warmup_epochs = 10, with the positivity hypothesis discharged. -/
theorem beta_schedule_correct_witness :
    0 < 10 ∧
    ((∀ e, e ≤ 10 → betaSchedule 10 beta_final e = (e : ℚ) / (10 : ℚ) * beta_final) ∧
     (∀ e, 10 < e → betaSchedule 10 beta_final e = beta_final) ∧
     (∀ e e', e ≤ e' → betaSchedule 10 beta_final e ≤ betaSchedule 10 beta_final e') ∧
     betaSchedule 10 beta_final 1 = beta_final / (10 : ℚ)) := by
  refine ⟨by decide, ?_⟩
  have h := beta_schedule_correct 10 (by decide)
  exact_mod_cast h

/- ------------------------------------------------------------------
Input alignment (vae_cluster.py lines 191-195):

    if len(read_ids) != len(embeddings):
        minlen = min(len(read_ids), len(embeddings))
        read_ids = read_ids[:minlen]
        embeddings = embeddings[:minlen]

and the two output tables (lines 400-411), which zip the (possibly
truncated) identifiers with per-row results of the downstream stages.
Identifiers are opaque; we embed them as an arbitrary type `α` and
embedding rows as `Vec`.
------------------------------------------------------------------ -/

def alignInputs {α : Type} (readIds : List α) (embeddings : List Vec) :
    List α × List Vec :=
  if readIds.length ≠ embeddings.length then
    let minlen := min readIds.length embeddings.length
    (readIds.take minlen, embeddings.take minlen)
  else
    (readIds, embeddings)

/-- Cluster table (read_id, cluster_id), in identifier order. -/
def clustersTable {α : Type} (readIds : List α) (clusterLabels : List ℤ) :
    List (α × ℤ) :=
  readIds.zip clusterLabels

/-- Novelty table (read_id, recon_error, cluster_distance), in identifier
order; the distance column carries the `⊤` = np.inf sentinel. -/
def noveltyTable {α : Type} (readIds : List α) (reconErrs : List ℚ)
    (clusterDists : List (WithTop ℚ)) : List (α × ℚ × WithTop ℚ) :=
  readIds.zip (reconErrs.zip clusterDists)

/-- C3: when the identifier list and the embedding matrix disagree in
length, both are truncated (never padded) to the shorter length, and both
output tables have exactly min(len ids, len embeddings) rows, listing the
identifiers in the truncated input order. The downstream per-row results
(labels, errors, distances) each have one entry per retained embedding
row, as produced by the clustering and novelty stages. -/
theorem truncation_output_rows {α : Type} (readIds : List α)
    (embeddings : List Vec) (clusterLabels : List ℤ) (reconErrs : List ℚ)
    (clusterDists : List (WithTop ℚ))
    (hmismatch : readIds.length ≠ embeddings.length)
    (hlab : clusterLabels.length = (alignInputs readIds embeddings).2.length)
    (herr : reconErrs.length = (alignInputs readIds embeddings).2.length)
    (hdist : clusterDists.length = (alignInputs readIds embeddings).2.length) :
    let ids' := (alignInputs readIds embeddings).1
    let minlen := min readIds.length embeddings.length
    ids' = readIds.take minlen ∧
    (alignInputs readIds embeddings).2 = embeddings.take minlen ∧
    (clustersTable ids' clusterLabels).length = minlen ∧
    (noveltyTable ids' reconErrs clusterDists).length = minlen ∧
    (clustersTable ids' clusterLabels).map Prod.fst = ids' ∧
    (noveltyTable ids' reconErrs clusterDists).map Prod.fst = ids' := by
  intro ids' minlen
  have hids : ids' = readIds.take minlen := by
    simp [ids', alignInputs, hmismatch, minlen]
  have hembs : (alignInputs readIds embeddings).2 = embeddings.take minlen := by
    simp [alignInputs, hmismatch, minlen]
  have hlen2 : (alignInputs readIds embeddings).2.length = minlen := by
    rw [hembs]
    simp [minlen]
  have hidlen : ids'.length = minlen := by
    rw [hids]
    simp [minlen]
  refine ⟨hids, hembs, ?_, ?_, ?_, ?_⟩
  · rw [clustersTable, List.length_zip, hidlen, hlab, hlen2, min_self]
  · rw [noveltyTable, List.length_zip, List.length_zip, hidlen, herr, hdist,
      hlen2, min_self, min_self]
  · apply List.map_fst_zip
    rw [hidlen, hlab, hlen2]
  · apply List.map_fst_zip
    rw [List.length_zip, hidlen, herr, hdist, hlen2, min_self]

/-- Witness for C3: identifiers of length 3 against 2 embedding rows; both
tables come out with 2 rows in the truncated identifier order. -/
theorem truncation_output_rows_witness :
    ([0, 1, 2] : List ℕ).length ≠ ([[1], [2]] : List Vec).length ∧
    (let ids' := (alignInputs ([0, 1, 2] : List ℕ) [[1], [2]]).1
     let minlen := min ([0, 1, 2] : List ℕ).length ([[1], [2]] : List Vec).length
     ids' = ([0, 1, 2] : List ℕ).take minlen ∧
     (alignInputs ([0, 1, 2] : List ℕ) [[1], [2]]).2 = ([[1], [2]] : List Vec).take minlen ∧
     (clustersTable ids' [0, -1]).length = minlen ∧
     (noveltyTable ids' [5, 7] [(3 : WithTop ℚ), ⊤]).length = minlen ∧
     (clustersTable ids' [0, -1]).map Prod.fst = ids' ∧
     (noveltyTable ids' [5, 7] [(3 : WithTop ℚ), ⊤]).map Prod.fst = ids') := by
  refine ⟨by decide, ?_⟩
  exact truncation_output_rows [0, 1, 2] [[1], [2]] [0, -1] [5, 7]
    [(3 : WithTop ℚ), ⊤] (by decide) (by decide) (by decide) (by decide)

/- ------------------------------------------------------------------
Cluster distances (vae_cluster.py lines 374-380):

    unique_clusters = [c for c in set(cluster_labels) if c != -1]
    if len(unique_clusters) > 0:
        centroids = np.array([latent_proj[cluster_labels == c].mean(axis=0)
                              for c in unique_clusters])
        distances = pairwise_distances(latent_proj, centroids)
        cluster_distance = distances.min(axis=1)
    else:
        cluster_distance = np.full(len(latent_proj), np.inf)

Distances are represented by their squares (see the header comment):
`sqDist` is the squared Euclidean distance, and minimisation over it
selects the same nearest centroid as over the true Euclidean distance.
`⊤ : WithTop ℚ` embeds the `np.inf` sentinel.
------------------------------------------------------------------ -/

def sqDist (x y : Vec) : ℚ :=
  (List.zipWith (fun a b => (a - b) ^ 2) x y).sum

def uniqueClusters (labels : List ℤ) : List ℤ :=
  labels.dedup.filter (· ≠ -1)

def clusterMembers (proj : List Vec) (labels : List ℤ) (c : ℤ) : List Vec :=
  ((proj.zip labels).filter (fun p => p.2 = c)).map Prod.fst

def vecSum : List Vec → Vec
  | [] => []
  | [v] => v
  | v :: rest => List.zipWith (· + ·) v (vecSum rest)

/-- Centroid of cluster c: arithmetic mean of the projected rows of its members. -/
def centroid (proj : List Vec) (labels : List ℤ) (c : ℤ) : Vec :=
  let ms := clusterMembers proj labels c
  (vecSum ms).map (fun a => a / (ms.length : ℚ))

/-- Minimum of a list of extended rationals (np.min over a distance row). -/
def listMin (l : List (WithTop ℚ)) : WithTop ℚ :=
  l.foldr min ⊤

/-- Distance of one projected row to the nearest centroid, or the infinity
sentinel when no non-noise cluster exists. -/
def clusterDistanceAt (proj : List Vec) (labels : List ℤ) (x : Vec) : WithTop ℚ :=
  let ucs := uniqueClusters labels
  if ucs = [] then ⊤
  else listMin (ucs.map (fun c => ((sqDist x (centroid proj labels c) : ℚ) : WithTop ℚ)))

/-- Full cluster_distance column, one entry per projected row. -/
def clusterDistances (proj : List Vec) (labels : List ℤ) : List (WithTop ℚ) :=
  if uniqueClusters labels = [] then List.replicate proj.length ⊤
  else proj.map (clusterDistanceAt proj labels)

theorem listMin_le (l : List (WithTop ℚ)) : ∀ a ∈ l, listMin l ≤ a := by
  induction l with
  | nil => intro a ha; cases ha
  | cons b t ih =>
    intro a ha
    have hm : listMin (b :: t) = min b (listMin t) := rfl
    rcases List.mem_cons.mp ha with h | h
    · rw [hm, h]; exact min_le_left _ _
    · rw [hm]; exact le_trans (min_le_right _ _) (ih a h)

theorem listMin_mem (l : List (WithTop ℚ)) (h : l ≠ []) : listMin l ∈ l := by
  induction l with
  | nil => exact absurd rfl h
  | cons b t ih =>
    have hm : listMin (b :: t) = min b (listMin t) := rfl
    by_cases ht : t = []
    · subst ht
      rw [hm]
      have : listMin ([] : List (WithTop ℚ)) = ⊤ := rfl
      rw [this, min_eq_left le_top]
      exact List.mem_cons_self _ _
    · rcases min_cases b (listMin t) with ⟨he, _⟩ | ⟨he, _⟩
      · rw [hm, he]; exact List.mem_cons_self _ _
      · rw [hm, he]; exact List.mem_cons_of_mem _ (ih ht)

/-- C2: with a non-empty set of non-noise labels, the
cluster_distance of every row is the minimum over non-noise clusters of the (squared)
Euclidean distance from that row to the centroid of the cluster (the mean of
its members): it is attained at some cluster and is a lower bound over
all clusters. The column equals the infinity sentinel at every row
exactly when the set of non-noise labels is empty. -/
theorem cluster_distance_correct (proj : List Vec) (labels : List ℤ)
    (hlen : labels.length = proj.length) :
    (uniqueClusters labels ≠ [] →
      clusterDistances proj labels = proj.map (clusterDistanceAt proj labels) ∧
      ∀ x ∈ proj,
        (∃ c ∈ uniqueClusters labels,
           clusterDistanceAt proj labels x
             = ((sqDist x (centroid proj labels c) : ℚ) : WithTop ℚ)) ∧
        ∀ c ∈ uniqueClusters labels,
          clusterDistanceAt proj labels x
            ≤ ((sqDist x (centroid proj labels c) : ℚ) : WithTop ℚ)) ∧
    ((∀ d ∈ clusterDistances proj labels, d = ⊤) ↔ uniqueClusters labels = []) := by
  have hrow : uniqueClusters labels ≠ [] → ∀ x : Vec,
      (∃ c ∈ uniqueClusters labels,
         clusterDistanceAt proj labels x
           = ((sqDist x (centroid proj labels c) : ℚ) : WithTop ℚ)) ∧
      ∀ c ∈ uniqueClusters labels,
        clusterDistanceAt proj labels x
          ≤ ((sqDist x (centroid proj labels c) : ℚ) : WithTop ℚ) := by
    intro hucs x
    have hd : clusterDistanceAt proj labels x
        = listMin ((uniqueClusters labels).map
            (fun c => ((sqDist x (centroid proj labels c) : ℚ) : WithTop ℚ))) := by
      simp [clusterDistanceAt, hucs]
    constructor
    · have hne : ((uniqueClusters labels).map
          (fun c => ((sqDist x (centroid proj labels c) : ℚ) : WithTop ℚ))) ≠ [] := by
        simpa using hucs
      have hmem := listMin_mem _ hne
      rcases List.mem_map.mp hmem with ⟨c, hc, hceq⟩
      exact ⟨c, hc, by rw [hd, ← hceq]⟩
    · intro c hc
      rw [hd]
      exact listMin_le _ _ (List.mem_map_of_mem _ hc)
  have hnotop : uniqueClusters labels ≠ [] → ∀ x : Vec,
      clusterDistanceAt proj labels x ≠ ⊤ := by
    intro hucs x
    rcases (hrow hucs x).1 with ⟨c, _, hceq⟩
    rw [hceq]
    exact WithTop.coe_ne_top
  constructor
  · intro hucs
    refine ⟨by simp [clusterDistances, hucs], fun x _ => hrow hucs x⟩
  · constructor
    · intro hall
      by_contra hucs
      have hlab : labels ≠ [] := by
        intro h
        exact hucs (by simp [uniqueClusters, h])
      have hproj : proj ≠ [] := by
        intro h
        rw [h] at hlen
        simp at hlen
        exact hlab hlen
      rcases List.exists_mem_of_ne_nil proj hproj with ⟨x, hx⟩
      have hmem : clusterDistanceAt proj labels x ∈ clusterDistances proj labels := by
        rw [(by simp [clusterDistances, hucs] :
          clusterDistances proj labels = proj.map (clusterDistanceAt proj labels))]
        exact List.mem_map_of_mem _ hx
      exact hnotop hucs x (hall _ hmem)
    · intro hucs d
      rw [(by simp [clusterDistances, hucs] :
        clusterDistances proj labels = List.replicate proj.length ⊤)]
      intro hd
      exact List.eq_of_mem_replicate hd

/-- Witness for C2: three one-dimensional rows with labels [0, 0, -1];
cluster 0 has centroid 1, and the distance column is finite everywhere. -/
theorem cluster_distance_correct_witness :
    ([(0 : ℤ), 0, -1] : List ℤ).length = ([[0], [2], [10]] : List Vec).length ∧
    ((uniqueClusters [(0 : ℤ), 0, -1] ≠ [] →
       clusterDistances [[0], [2], [10]] [(0 : ℤ), 0, -1]
         = ([[0], [2], [10]] : List Vec).map
             (clusterDistanceAt [[0], [2], [10]] [(0 : ℤ), 0, -1]) ∧
       ∀ x ∈ ([[0], [2], [10]] : List Vec),
         (∃ c ∈ uniqueClusters [(0 : ℤ), 0, -1],
            clusterDistanceAt [[0], [2], [10]] [(0 : ℤ), 0, -1] x
              = ((sqDist x (centroid [[0], [2], [10]] [(0 : ℤ), 0, -1] c) : ℚ) : WithTop ℚ)) ∧
         ∀ c ∈ uniqueClusters [(0 : ℤ), 0, -1],
           clusterDistanceAt [[0], [2], [10]] [(0 : ℤ), 0, -1] x
             ≤ ((sqDist x (centroid [[0], [2], [10]] [(0 : ℤ), 0, -1] c) : ℚ) : WithTop ℚ)) ∧
     ((∀ d ∈ clusterDistances [[0], [2], [10]] [(0 : ℤ), 0, -1], d = ⊤) ↔
        uniqueClusters [(0 : ℤ), 0, -1] = [])) := by
  exact ⟨by decide, cluster_distance_correct [[0], [2], [10]] [(0 : ℤ), 0, -1] (by decide)⟩

/- ------------------------------------------------------------------
Dimensionality-reduction fallback chain (vae_cluster.py lines 337-364):

    latent_proj = None
    use_umap = _HAS_UMAP
    if use_umap:
        try:  latent_proj = umap.UMAP(...).fit_transform(latent_scaled)
        except Exception:  use_umap = False
    if not use_umap or latent_proj is None:
        try:
            latent_proj = PCA(...).fit_transform(latent_scaled)
            explained = np.sum(pca.explained_variance_ratio_)
            if np.isnan(explained): raise ValueError(...)
        except Exception:  latent_proj = latent_scaled

The two library calls are embedded as outcome parameters: a raised
exception (or an unavailable library) is `none`; a returned matrix is
`some`. The PCA outcome also carries the explained-variance sum, whose
NaN-ness the code inspects; matrix entries use `Flt`, a float with an
explicit NaN, so that NaN-containing results are representable.
------------------------------------------------------------------ -/

inductive Flt where
  | val (q : ℚ)
  | nan
  deriving DecidableEq

def Flt.isNaN : Flt → Bool
  | .val _ => false
  | .nan => true

abbrev FMat := List (List Flt)

def matHasNaN (m : FMat) : Bool :=
  m.any (fun row => row.any Flt.isNaN)

/-- The projection stage: try UMAP when available, else PCA, else the
standardized latent matrix unchanged. `umapOutcome = none` models an
unavailable library or a raised exception; `pcaOutcome = none` models a
raised exception, and a returned pair carries transformed matrix and
explained-variance sum (whose NaN triggers the raise at line 360). -/
def dimReduce (hasUmap : Bool) (umapOutcome : Option FMat)
    (pcaOutcome : Option (FMat × Flt)) (latentScaled : FMat) : FMat :=
  match (if hasUmap then umapOutcome else none) with
  | some m => m
  | none =>
    match pcaOutcome with
    | some (m, explained) => if explained.isNaN then latentScaled else m
    | none => latentScaled

/-- UMAP target width (line 339) and PCA target width (line 353), both
clipped to the available dimensionality d. -/
def umapTarget (d : ℕ) : ℕ := min umap_components d

def pcaTarget (d : ℕ) : ℕ := min pca_components d

/-- Counterexample to C5 as stated: a UMAP run that returns a degenerate
NaN matrix without raising is used directly as the clustering input; the
code does not inspect UMAP output for NaN and does not fall back to the
PCA tier (whose clean result [[0]] is available here and ignored). -/
theorem umap_nan_used_directly :
    dimReduce true (some [[Flt.nan]]) (some ([[Flt.val 0]], Flt.val 1)) [[Flt.val 2]]
      = [[Flt.nan]] ∧
    matHasNaN (dimReduce true (some [[Flt.nan]])
      (some ([[Flt.val 0]], Flt.val 1)) [[Flt.val 2]]) = true ∧
    dimReduce true (some [[Flt.nan]]) (some ([[Flt.val 0]], Flt.val 1)) [[Flt.val 2]]
      ≠ [[Flt.val 0]] := by
  refine ⟨rfl, rfl, ?_⟩
  decide

/-- C5 amended: the stage tries UMAP first and uses any matrix it returns
(even one containing NaN); it falls back to PCA only when UMAP is
unavailable or raises; the NaN check applies to the explained
variance of the PCA tier, which (like a PCA exception) falls back to the standardized
latent matrix unchanged; every tier shape yields a defined matrix, so
exhausting the chain is never fatal; and the PCA target width never
exceeds the UMAP target width. -/
theorem dim_reduce_fallback_chain (h : Bool) (m₁ m₂ ls : FMat) (e : Flt)
    (po : Option (FMat × Flt)) (d : ℕ) :
    dimReduce true (some m₁) po ls = m₁ ∧
    dimReduce h none (some (m₂, e)) ls = (if e.isNaN then ls else m₂) ∧
    dimReduce false (some m₁) (some (m₂, e)) ls = (if e.isNaN then ls else m₂) ∧
    dimReduce h none none ls = ls ∧
    dimReduce false (some m₁) none ls = ls ∧
    pcaTarget d ≤ umapTarget d := by
  refine ⟨rfl, ?_, rfl, ?_, rfl, ?_⟩
  · cases h <;> rfl
  · cases h <;> rfl
  · exact min_le_min (by norm_num [pca_components, umap_components]) le_rfl

/- ------------------------------------------------------------------
The VAE itself (vae_cluster.py lines 208-251): linear layers, ReLU,
encode / reparameterize / decode / forward, and vae_losses. A linear
layer is a weight matrix (list of rows) and a bias vector; `rexp`
abstracts torch.exp.
------------------------------------------------------------------ -/

def dot (x y : Vec) : ℚ :=
  (List.zipWith (· * ·) x y).sum

def affine (W : List Vec) (b : Vec) (x : Vec) : Vec :=
  List.zipWith (· + ·) (W.map (fun row => dot row x)) b

def reluVec (x : Vec) : Vec :=
  x.map (fun a => max a 0)

structure VAE where
  fc1W : List Vec
  fc1b : Vec
  fcMuW : List Vec
  fcMub : Vec
  fcLvW : List Vec
  fcLvb : Vec
  fc2W : List Vec
  fc2b : Vec
  fc3W : List Vec
  fc3b : Vec

/-- Encoder (lines 224-226): hidden ReLU layer, then mu and logvar heads. -/
def VAE.encode (p : VAE) (x : Vec) : Vec × Vec :=
  let h := reluVec (affine p.fc1W p.fc1b x)
  (affine p.fcMuW p.fcMub h, affine p.fcLvW p.fcLvb h)

/-- torch.clamp with lower and upper bounds. -/
def clampQ (lo hi a : ℚ) : ℚ :=
  max lo (min a hi)

/-- Reparameterized sampling (lines 228-232): clamp logvar to [-20, 20],
std = exp(0.5 * logvar), z = mu + eps * std, with eps the standard-normal
draw passed explicitly. -/
def reparameterize (rexp : ℚ → ℚ) (mu logvar eps : Vec) : Vec :=
  let lv := logvar.map (clampQ (-20) 20)
  let std := lv.map (fun a => rexp (1 / 2 * a))
  List.zipWith (· + ·) mu (List.zipWith (· * ·) eps std)

/-- Decoder (lines 234-236). -/
def VAE.decode (p : VAE) (z : Vec) : Vec :=
  affine p.fc3W p.fc3b (reluVec (affine p.fc2W p.fc2b z))

/-- forward (lines 238-242): returns (x_recon, mu, logvar). -/
def VAE.forward (p : VAE) (rexp : ℚ → ℚ) (eps x : Vec) : Vec × Vec × Vec :=
  let ml := p.encode x
  (p.decode (reparameterize rexp ml.1 ml.2 eps), ml.1, ml.2)

def meanQ (l : Vec) : ℚ :=
  l.sum / (l.length : ℚ)

/-- Per-sample MSE rows of vae_losses (line 246): mean over dimensions of
(x_recon - x) squared, one entry per batch row. -/
def reconPerSample (x xrecon : List Vec) : Vec :=
  List.zipWith (fun xi ri => meanQ (List.zipWith (fun a b => (b - a) ^ 2) xi ri)) x xrecon

/-- Per-sample KL rows of vae_losses (line 249):
-0.5 * sum(1 + logvar - mu^2 - exp(logvar)), one entry per batch row. -/
def kldPerSample (rexp : ℚ → ℚ) (mu logvar : List Vec) : Vec :=
  List.zipWith
    (fun m l => -(1 / 2) * (List.zipWith (fun mi li => 1 + li - mi ^ 2 - rexp li) m l).sum)
    mu logvar

/-- vae_losses (lines 244-251): batch means of the two per-sample rows. -/
def vaeLosses (rexp : ℚ → ℚ) (x xrecon mu logvar : List Vec) : ℚ × ℚ :=
  (meanQ (reconPerSample x xrecon), meanQ (kldPerSample rexp mu logvar))

/-- Input-noise injection (lines 277-281): noise = randn * input_noise_std,
x_noisy = x + noise; the scaled standard-normal draw is passed per row. -/
def addNoise (x n : Vec) : Vec :=
  List.zipWith (fun a b => a + b * input_noise_std) x n

def noisyBatch (xB nB : List Vec) : List Vec :=
  if 0 < input_noise_std then List.zipWith addNoise xB nB else xB

/-- Loss of one training minibatch (lines 273-290): forward on the noisy
input, losses against the clean input, total = recon + beta * kld. -/
def batchLoss (p : VAE) (rexp : ℚ → ℚ) (beta : ℚ) (xB nB eB : List Vec) : ℚ :=
  let outs := List.zipWith (fun x e => p.forward rexp e x) (noisyBatch xB nB) eB
  let rl := vaeLosses rexp xB (outs.map (·.1)) (outs.map (·.2.1)) (outs.map (·.2.2))
  rl.1 + beta * rl.2

/- ------------------------------------------------------------------
Specification-side definitions (refinement targets), written from the wording of the
spec in sections 4.1-4.3 and compared against the code-side
definitions above.
------------------------------------------------------------------ -/

/-- Spec 4.1: z = mean + noise * exp(0.5 * clamp(log_variance, -20, 20)). -/
def specSample (rexp : ℚ → ℚ) (mean logvar noise : Vec) : Vec :=
  List.zipWith3 (fun m l e => m + e * rexp (1 / 2 * clampQ (-20) 20 l)) mean logvar noise

/-- Spec 4.1: per-sample mean-squared reconstruction error. -/
def specMSE (recon target : Vec) : ℚ :=
  meanQ (List.zipWith (fun a b => (a - b) ^ 2) recon target)

/-- Spec 4.1: closed-form KL divergence of N(mean, exp(logvar)) from the
standard normal prior. -/
def specKL (rexp : ℚ → ℚ) (mean logvar : Vec) : ℚ :=
  -(1 / 2) * (List.zipWith (fun m l => 1 + l - m ^ 2 - rexp l) mean logvar).sum

/-- Spec 4.2 step 2 per-row contributions: encode the noised input, decode
a reparameterized sample, score reconstruction against the unnoised input
and KL against the prior. -/
def specRows (p : VAE) (rexp : ℚ → ℚ) (xB nB eB : List Vec) : List (ℚ × ℚ) :=
  List.zipWith3 (fun x n e =>
    let xn := List.zipWith (fun a b => a + b * input_noise_std) x n
    let ml := p.encode xn
    (specMSE (p.decode (specSample rexp ml.1 ml.2 e)) x, specKL rexp ml.1 ml.2))
    xB nB eB

/-- Spec 4.1/4.2: total minibatch loss = batch-mean reconstruction error
plus beta times batch-mean KL. -/
def specBatchLoss (p : VAE) (rexp : ℚ → ℚ) (beta : ℚ) (xB nB eB : List Vec) : ℚ :=
  meanQ ((specRows p rexp xB nB eB).map (·.1)) +
    beta * meanQ ((specRows p rexp xB nB eB).map (·.2))

/- Shared helper lemmas relating the code-side and spec-side forms. -/

theorem reparameterize_eq_specSample (rexp : ℚ → ℚ) :
    ∀ mu logvar eps : Vec,
      reparameterize rexp mu logvar eps = specSample rexp mu logvar eps := by
  intro mu
  induction mu with
  | nil => intro lv e; cases lv <;> cases e <;> rfl
  | cons m ms ih =>
    intro lv e
    cases lv with
    | nil => cases e <;> rfl
    | cons l ls =>
      cases e with
      | nil => rfl
      | cons a as =>
        show (m + a * rexp (1 / 2 * clampQ (-20) 20 l)) :: reparameterize rexp ms ls as
            = (m + a * rexp (1 / 2 * clampQ (-20) 20 l)) :: specSample rexp ms ls as
        rw [ih ls as]

theorem zipWith_sq_swap : ∀ u v : Vec,
    List.zipWith (fun a b => (b - a) ^ 2) u v
      = List.zipWith (fun a b => (a - b) ^ 2) v u := by
  intro u
  induction u with
  | nil => intro v; cases v <;> rfl
  | cons a as ih =>
    intro v
    cases v with
    | nil => rfl
    | cons b bs =>
      show (b - a) ^ 2 :: _ = (b - a) ^ 2 :: _
      rw [ih bs]

/-- C6: the sampled latent point produced by reparameterize equals the
spec formula z = mean + noise * exp(0.5 * clamp(log_variance, -20, 20)),
componentwise, for every mean, log-variance and standard-normal draw. -/
theorem reparameterize_correct (rexp : ℚ → ℚ) (mu logvar eps : Vec) :
    reparameterize rexp mu logvar eps = specSample rexp mu logvar eps :=
  reparameterize_eq_specSample rexp mu logvar eps

theorem recon_rows (p : VAE) (rexp : ℚ → ℚ) :
    ∀ xB nB eB : List Vec,
      reconPerSample xB
        ((List.zipWith (fun x e => p.forward rexp e x)
          (List.zipWith addNoise xB nB) eB).map (·.1))
      = (specRows p rexp xB nB eB).map (·.1) := by
  intro xB
  induction xB with
  | nil => intro nB eB; cases nB <;> cases eB <;> rfl
  | cons x xs ih =>
    intro nB eB
    cases nB with
    | nil => cases eB <;> rfl
    | cons n ns =>
      cases eB with
      | nil => rfl
      | cons e es =>
        show meanQ (List.zipWith (fun a b => (b - a) ^ 2) x
              (p.decode (reparameterize rexp (p.encode (addNoise x n)).1
                (p.encode (addNoise x n)).2 e)))
            :: reconPerSample xs ((List.zipWith (fun x e => p.forward rexp e x)
                (List.zipWith addNoise xs ns) es).map (·.1))
          = specMSE (p.decode (specSample rexp (p.encode (addNoise x n)).1
              (p.encode (addNoise x n)).2 e)) x
            :: (specRows p rexp xs ns es).map (·.1)
        rw [ih ns es, zipWith_sq_swap, reparameterize_eq_specSample]
        rfl

theorem kld_rows (p : VAE) (rexp : ℚ → ℚ) :
    ∀ xB nB eB : List Vec,
      kldPerSample rexp
        ((List.zipWith (fun x e => p.forward rexp e x)
          (List.zipWith addNoise xB nB) eB).map (·.2.1))
        ((List.zipWith (fun x e => p.forward rexp e x)
          (List.zipWith addNoise xB nB) eB).map (·.2.2))
      = (specRows p rexp xB nB eB).map (·.2) := by
  intro xB
  induction xB with
  | nil => intro nB eB; cases nB <;> cases eB <;> rfl
  | cons x xs ih =>
    intro nB eB
    cases nB with
    | nil => cases eB <;> rfl
    | cons n ns =>
      cases eB with
      | nil => rfl
      | cons e es =>
        show specKL rexp (p.encode (addNoise x n)).1 (p.encode (addNoise x n)).2
            :: kldPerSample rexp
                ((List.zipWith (fun x e => p.forward rexp e x)
                  (List.zipWith addNoise xs ns) es).map (·.2.1))
                ((List.zipWith (fun x e => p.forward rexp e x)
                  (List.zipWith addNoise xs ns) es).map (·.2.2))
          = specKL rexp (p.encode (addNoise x n)).1 (p.encode (addNoise x n)).2
            :: (specRows p rexp xs ns es).map (·.2)
        rw [ih ns es]

/-- C4: for every training minibatch, noise injection is live (the noise
branch is taken, since input_noise_std = 1/100 > 0) and the total loss
equals the batch mean of per-sample mean-squared reconstruction error of
the decoded sample of the NOISED input scored against the CLEAN input,
plus beta times the batch mean of per-sample KL divergence from the
standard-normal prior — exactly the spec-side loss. -/
theorem training_loss_correct (p : VAE) (rexp : ℚ → ℚ) (beta : ℚ)
    (xB nB eB : List Vec) :
    noisyBatch xB nB = List.zipWith addNoise xB nB ∧
    batchLoss p rexp beta xB nB eB = specBatchLoss p rexp beta xB nB eB := by
  have hnoise : noisyBatch xB nB = List.zipWith addNoise xB nB := by
    have : (0 : ℚ) < input_noise_std := by norm_num [input_noise_std]
    simp [noisyBatch, this]
  refine ⟨hnoise, ?_⟩
  simp only [batchLoss, vaeLosses, specBatchLoss, hnoise]
  rw [recon_rows p rexp xB nB eB, kld_rows p rexp xB nB eB]

/- ------------------------------------------------------------------
Latent extraction and reconstruction errors (vae_cluster.py lines 309-319):

    mu_all, logvar_all = vae.encode(X_device)
    latent = mu_all.numpy()            # deterministic mean for clustering
    z_sample = vae.reparameterize(mu_all, logvar_all)
    recon = vae.decode(z_sample)
    recon_errors = torch.mean((recon - X_all) ** 2, dim=1)
------------------------------------------------------------------ -/

def latentForClustering (p : VAE) (X : List Vec) : List Vec :=
  X.map (fun x => (p.encode x).1)

def reconErrors (p : VAE) (rexp : ℚ → ℚ) (X eps : List Vec) : Vec :=
  let mus := X.map (fun x => (p.encode x).1)
  let lvs := X.map (fun x => (p.encode x).2)
  let zs := List.zipWith3 (reparameterize rexp) mus lvs eps
  let recons := zs.map p.decode
  List.zipWith (fun r x => meanQ (List.zipWith (fun a b => (a - b) ^ 2) r x)) recons X

/-- Spec 4.3: the deterministic encoder mean used for clustering. -/
def specLatent (p : VAE) (x : Vec) : Vec :=
  (p.encode x).1

/-- Spec 4.3: one stochastic sample per read drawn from the encoded
distribution, decoded, and scored by MSE against the clean input. -/
def specReconError (p : VAE) (rexp : ℚ → ℚ) (x e : Vec) : ℚ :=
  let ml := p.encode x
  specMSE (p.decode (specSample rexp ml.1 ml.2 e)) x

/-- C7: the ReconstructionError of each read is the mean-squared error
between the decode of one reparameterized sample from the encoded
distribution of that read and the clean input, while the latent used for clustering is
the deterministic encoder mean (no sampling). -/
theorem novelty_paths_correct (p : VAE) (rexp : ℚ → ℚ) (X eps : List Vec) :
    latentForClustering p X = X.map (specLatent p) ∧
    reconErrors p rexp X eps = List.zipWith (specReconError p rexp) X eps := by
  refine ⟨rfl, ?_⟩
  induction X generalizing eps with
  | nil => cases eps <;> rfl
  | cons x xs ih =>
    cases eps with
    | nil => rfl
    | cons e es =>
      show meanQ (List.zipWith (fun a b => (a - b) ^ 2)
            (p.decode (reparameterize rexp (p.encode x).1 (p.encode x).2 e)) x)
          :: reconErrors p rexp xs es
        = specReconError p rexp x e :: List.zipWith (specReconError p rexp) xs es
      rw [ih es, reparameterize_eq_specSample]
      rfl

end VaeCluster
